import Mathlib

/-!
Verification of the inventory core of `src/app.py` (TITAN ENTERPRISE):
ingestion of pipe-delimited text (`TitanLogicCore.execute_import`), FIFO
withdrawal (`TitanLogicCore.execute_fifo_export`), the status-refresh sweep
(`TitanLogicCore.simulate_auto_check`), and the dashboard asset counts
(`main`). Rows are lists of cell strings, possibly shorter than the
canonical 11 columns, exactly as `get_all_values` may return them; every
cell access mirrors the guards of the Python code.
-/

namespace Titan

/-- A sheet row as returned by the store: a list of cell strings, possibly
shorter than the canonical 11 columns. -/
abbrev Row := List String

/-- Reading cell j of a row, an absent cell being the empty string: models
the `row[j] if len(row) > j else ""` guards in app.py and the sheet's view
of a short row. -/
def getCell (r : Row) (j : Nat) : String := r.getD j ""

/-- Tests whether the first list is a prefix of the second (character lists). -/
def startsWithL : List Char → List Char → Bool
  | [], _ => true
  | _ :: _, [] => false
  | p :: ps, c :: cs => p == c && startsWithL ps cs

/-- Tests whether pat occurs as a contiguous run inside l; models the Python
substring test `pat in s` on the character level. -/
def containsL (pat : List Char) : List Char → Bool
  | [] => pat.isEmpty
  | c :: cs => startsWithL pat (c :: cs) || containsL pat cs

/-- Python `pat in s`: pat is a substring of s. -/
def strContains (s pat : String) : Bool := containsL pat.data s.data

/-- Python `s.split(ch)` with a one-character separator: empty pieces kept,
the empty string splitting into one empty piece. -/
def splitOnCharL (c : Char) : List Char → List (List Char)
  | [] => [[]]
  | x :: xs =>
    match splitOnCharL c xs with
    | [] => [[]]
    | g :: gs => if x == c then [] :: g :: gs else (x :: g) :: gs

/-- String-level `s.split(ch)`. -/
def splitStr (c : Char) (s : String) : List String :=
  (splitOnCharL c s.data).map (fun cs => String.mk cs)

/-- Python `s.strip()`: drop leading and trailing whitespace. -/
def stripStr (s : String) : String :=
  String.mk (((s.data.dropWhile Char.isWhitespace).reverse.dropWhile
    Char.isWhitespace).reverse)

/-- Python `sep.join(l)`. -/
def joinWith (sep : String) : List String → String
  | [] => ""
  | [s] => s
  | s :: rest => s ++ sep ++ joinWith sep rest

/-- Number of canonical columns, `len(SystemConfig.DB_HEADERS)`. -/
def numCols : Nat := 11

/-- One fully empty spacer row, `[""] * len(DB_HEADERS)`. -/
def emptyRow : Row := List.replicate numCols ""

/-- The batch header row: first cell `"📦 {batch_name} ({timestamp})"`,
remaining 10 cells empty. -/
def batchHeaderRow (batch ts : String) : Row :=
  ("📦 " ++ batch ++ " (" ++ ts ++ ")") :: List.replicate (numCols - 1) ""

/-- Pad the split fields on the right with empty strings until at least 6
entries (the `while len(parts) < 6` loop). -/
def padParts (l : List String) : List String := l ++ List.replicate (6 - l.length) ""

/-- The pipe-separated fields of one (already stripped) ingestion line. -/
def splitFields (line : String) : List String := splitStr '|' line

/-- One data row built from a stripped non-blank ingestion line, mirroring
the schema mapping of `TitanLogicCore.execute_import`: column B the first
field, C the second, D fields 2..5 rejoined, J the first six fields
rejoined, G `"Active"`, I `"Live"`, K `"New"`. -/
def parseLine (line : String) : Row :=
  let parts := padParts (splitFields line)
  let merged_info := joinWith "|" ((parts.drop 2).take 4)
  let raw_j := joinWith "|" (parts.take 6)
  ["", parts.getD 0 "", parts.getD 1 "", merged_info, "", "", "Active", "", "Live",
    raw_j, "New"]

/-- The stripped non-blank lines of the raw ingestion text, in input order. -/
def dataLines (raw : String) : List String :=
  ((splitStr '\n' raw).map stripStr).filter (fun s => s != "")

/-- `TitanLogicCore.execute_import` as the pair (returned count, rows passed
to the single `append_rows` call; `[]` when no call is made). `hasWs` models
whether the core holds a worksheet (`self.ws`). -/
def execute_import (hasWs : Bool) (batch ts raw : String) : Nat × List Row :=
  if !hasWs then (0, [])
  else
    let ds := dataLines raw
    if 0 < ds.length then
      (ds.length, List.replicate 5 emptyRow ++ [batchHeaderRow batch ts] ++ ds.map parseLine)
    else (0, [])

/-- The taken-marker substring checked by the withdrawal scan. -/
def takenMarker : String := "Đã lấy"

/-- The stock-note value written on withdrawal: `"Đã lấy {timestamp}"`. -/
def takenNote (ts : String) : String := takenMarker ++ " " ++ ts

/-- The row skip test of the withdrawal scan, `len(row) < 2 or row[1] == ""`
negated: a countable data row has a non-empty identifier in column B. -/
def isDataRow (r : Row) : Bool := !(decide (r.length < 2) || getCell r 1 == "")

/-- A row the withdrawal scan grants: a data row whose stock note (column K)
does not contain the taken marker. -/
def eligible (r : Row) : Bool :=
  isDataRow r && !(strContains (getCell r 10) takenMarker)

/-- State threaded through the withdrawal scan: collected payloads, queued
cell updates (sheet row, new stock-note value) and the number found. -/
structure ExportState where
  buffer : List String
  updates : List (Nat × String)
  found : Nat
deriving DecidableEq

/-- The scan loop of `TitanLogicCore.execute_fifo_export` over the remaining
rows, i being the 0-based index in the full table of the first row of the
list: skip the header (index 0), skip non-data rows, skip taken rows,
collect the payload (column J) and queue the `K{i+1}` update otherwise,
stopping once the quantity is reached. -/
def fifoLoop (ts : String) (qty : Nat) : Nat → List Row → ExportState → ExportState
  | _, [], st => st
  | i, r :: rs, st =>
    if i == 0 then fifoLoop ts qty (i + 1) rs st
    else if !(isDataRow r) then fifoLoop ts qty (i + 1) rs st
    else if strContains (getCell r 10) takenMarker then fifoLoop ts qty (i + 1) rs st
    else
      let st2 : ExportState :=
        ⟨st.buffer ++ [getCell r 9], st.updates ++ [(i + 1, takenNote ts)], st.found + 1⟩
      if qty ≤ st2.found then st2 else fifoLoop ts qty (i + 1) rs st2

/-- `TitanLogicCore.execute_fifo_export` as the pair (returned optional text,
cell updates issued through the one `batch_update` call). An empty buffer
returns `none` and issues no update; otherwise the payloads are joined with
newlines. -/
def execute_fifo_export (hasWs : Bool) (ts : String) (qty : Nat) (T : List Row) :
    Option String × List (Nat × String) :=
  if !hasWs then (none, [])
  else
    let st := fifoLoop ts qty 0 T ⟨[], [], 0⟩
    if st.buffer.isEmpty then (none, [])
    else (some (joinWith "\n" st.buffer), st.updates)

/-- Writing value v into cell j of a row, the sheet padding a short row with
empty cells up to position j. -/
def setCell : Row → Nat → String → Row
  | [], 0, v => [v]
  | [], j + 1, v => "" :: setCell [] j v
  | _ :: cs, 0, v => v :: cs
  | c :: cs, j + 1, v => c :: setCell cs j v

/-- Replace the row at 0-based index n by f of it (no effect past the end). -/
def modifyRow (f : Row → Row) : Nat → List Row → List Row
  | _, [] => []
  | 0, r :: rs => f r :: rs
  | n + 1, r :: rs => r :: modifyRow f n rs

/-- Apply the queued stock-note updates to the table: update (n, v) writes v
into column K (cell index 10) of sheet row n, i.e. table index n - 1. -/
def applyUpdates (T : List Row) (us : List (Nat × String)) : List Row :=
  us.foldl (fun acc u => modifyRow (fun r => setCell r 10 u.2) (u.1 - 1) acc) T

/-- The rows paired with their table indices, starting at index i. -/
def enumRows (i : Nat) : List Row → List (Nat × Row)
  | [] => []
  | r :: rs => (i, r) :: enumRows (i + 1) rs

/-- The eligible (index, row) pairs among rs, rs starting at table index i. -/
def eligFrom (i : Nat) (rs : List Row) : List (Nat × Row) :=
  (enumRows i rs).filter (fun p => eligible p.2)

/-- The eligible (index, row) pairs of the table in row order, the header
row (index 0) excluded. -/
def eligPairs (T : List Row) : List (Nat × Row) :=
  eligFrom 1 (T.drop 1)

/-- The first qty eligible pairs in row order: what a FIFO withdrawal grants. -/
def selectedRows (qty : Nat) (T : List Row) : List (Nat × Row) :=
  (eligPairs T).take qty

/-- Task selection of `TitanLogicCore.simulate_auto_check`: the sheet row
indices (dataframe index + 2) of rows with a usable UID (non-empty, not
blank after strip, not the pandas "nan" artifact) and not kicked. df holds
the data rows of the table, the header row already removed. -/
def sweepTasks (df : List Row) : List Nat :=
  (enumRows 0 df).filterMap (fun p =>
    let uid := getCell p.2 1
    let kick := getCell p.2 6
    if uid != "" && stripStr uid != "" && uid != "nan" && !(strContains kick "Kick")
    then some (p.1 + 2) else none)

/-- Outcome of the sweep's update loop: the cell writes that reached the
store (sheet row, column, text), the sheet rows whose update raised and was
logged, and the number of loop iterations run (progress callbacks). -/
structure SweepResult where
  writes : List (Nat × Nat × String)
  errors : List Nat
  processed : Nat
deriving DecidableEq

/-- The update loop of `TitanLogicCore.simulate_auto_check` over the selected
sheet rows: metrics r is the (column E, column F) text pair computed for row
r (random in the source), fail r c tells whether the `update_cell` call for
(row r, column c) raises. The two writes of one row share one try block: if
the column-5 write raises, the column-6 write is not attempted; any
exception is logged and the loop moves to the next row. -/
def runSweep (metrics : Nat → String × String) (fail : Nat → Nat → Bool) :
    List Nat → SweepResult
  | [] => ⟨[], [], 0⟩
  | r :: rs =>
    let rest := runSweep metrics fail rs
    if fail r 5 then ⟨rest.writes, r :: rest.errors, rest.processed + 1⟩
    else if fail r 6 then
      ⟨(r, 5, (metrics r).1) :: rest.writes, r :: rest.errors, rest.processed + 1⟩
    else
      ⟨(r, 5, (metrics r).1) :: (r, 6, (metrics r).2) :: rest.writes, rest.errors,
        rest.processed + 1⟩

/-- TOTAL ASSETS metric of main: rows after the header whose UID column is
non-empty (valid_df). -/
def totalAssets (T : List Row) : Nat :=
  ((T.drop 1).filter (fun r => getCell r 1 != "")).length

/-- AVAILABLE (NEW) metric of main: valid rows whose stock note contains
"New". -/
def newAssets (T : List Row) : Nat :=
  ((T.drop 1).filter (fun r => getCell r 1 != "" && strContains (getCell r 10) "New")).length

/-- Modelled from the spec: lower-casing for the case-insensitive keyword
match; the keyword-filtered withdrawal variant is not in src/app.py, whose
execute_fifo_export takes only a quantity. -/
def toLowerStr (s : String) : String := String.mk (s.data.map Char.toLower)

/-- Modelled from the spec: case-insensitive substring test used by the
keyword rule. -/
def containsCI (s pat : String) : Bool := strContains (toLowerStr s) (toLowerStr pat)

/-- Modelled from the spec: a withdrawal keyword matches a row when it is
empty or occurs case-insensitively in the batch label (column A), the merged
composite info (column D) or the raw payload (column J); spec section 4.3. -/
def kwMatches (kw : String) (r : Row) : Bool :=
  kw == "" || containsCI (getCell r 0) kw || containsCI (getCell r 3) kw ||
    containsCI (getCell r 9) kw

/-- Modelled from the spec: the rows a keyword-filtered withdrawal selects —
eligible rows also matching the keyword, in file order, the header row
skipped, until the quantity is reached. -/
def selectKw (kw : String) (qty : Nat) (T : List Row) : List (Nat × Row) :=
  ((enumRows 1 (T.drop 1)).filter (fun p => eligible p.2 && kwMatches kw p.2)).take qty

/-- Modelled from the spec: keyword-filtered withdrawal — the returned
newline-joined payload text (none when nothing is eligible) and the queued
stock-note updates. -/
def exportKw (kw ts : String) (qty : Nat) (T : List Row) :
    Option String × List (Nat × String) :=
  if (selectKw kw qty T).isEmpty then (none, [])
  else (some (joinWith "\n" ((selectKw kw qty T).map (fun p => getCell p.2 9))),
        (selectKw kw qty T).map (fun p => (p.1 + 1, takenNote ts)))

/-! Basic lemmas about the ingestion transformation. -/

theorem padParts_length (l : List String) : 6 ≤ (padParts l).length := by
  simp only [padParts, List.length_append, List.length_replicate]
  omega

theorem padParts_of_ge (l : List String) (h : 6 ≤ l.length) : padParts l = l := by
  simp [padParts, Nat.sub_eq_zero_of_le h]

theorem six_decomp (l : List String) (h : 6 ≤ l.length) :
    ∃ a b c d e f r, l = a :: b :: c :: d :: e :: f :: r := by
  match l with
  | a :: b :: c :: d :: e :: f :: r => exact ⟨a, b, c, d, e, f, r, rfl⟩
  | [] | [_] | [_, _] | [_, _, _] | [_, _, _, _] | [_, _, _, _, _] => simp at h

theorem parseLine_cell1 (line : String) :
    getCell (parseLine line) 1 = (padParts (splitFields line)).getD 0 "" := rfl

theorem parseLine_cell2 (line : String) :
    getCell (parseLine line) 2 = (padParts (splitFields line)).getD 1 "" := rfl

theorem parseLine_cell3 (line : String) :
    getCell (parseLine line) 3 = joinWith "|" (((padParts (splitFields line)).drop 2).take 4) :=
  rfl

theorem parseLine_cell9 (line : String) :
    getCell (parseLine line) 9 = joinWith "|" ((padParts (splitFields line)).take 6) := rfl

/-- C7: round-trip of ingestion. The data row built from a line stores the
first field in column B, the second in column C, fields 2..5 rejoined in
column D and the first six fields rejoined in column J, and rejoining
columns B, C and D with the pipe separator reproduces column J, the first
six pipe-separated fields of the line; for example "u2|p2" yields the raw
payload "u2|p2||||". -/
theorem ingest_round_trip (line : String) :
    getCell (parseLine line) 1 = (padParts (splitFields line)).getD 0 "" ∧
    getCell (parseLine line) 2 = (padParts (splitFields line)).getD 1 "" ∧
    getCell (parseLine line) 3 = joinWith "|" (((padParts (splitFields line)).drop 2).take 4) ∧
    getCell (parseLine line) 9 = joinWith "|" ((padParts (splitFields line)).take 6) ∧
    getCell (parseLine line) 1 ++ "|" ++ getCell (parseLine line) 2 ++ "|" ++
      getCell (parseLine line) 3 = getCell (parseLine line) 9 ∧
    getCell (parseLine "u2|p2") 9 = "u2|p2||||" := by
  refine ⟨rfl, rfl, rfl, rfl, ?_, by decide⟩
  obtain ⟨a, b, c, d, e, f, r, hl⟩ := six_decomp _ (padParts_length (splitFields line))
  rw [parseLine_cell1, parseLine_cell2, parseLine_cell3, parseLine_cell9, hl]
  have hd2 : ((a :: b :: c :: d :: e :: f :: r).drop 2).take 4 = [c, d, e, f] := rfl
  have ht6 : (a :: b :: c :: d :: e :: f :: r).take 6 = [a, b, c, d, e, f] := rfl
  rw [hd2, ht6]
  simp [joinWith, List.getD, String.append_assoc]

/-- C3 counterexample: a line with seven pipe-separated fields stores only
the first six in the raw payload column: the stored raw payload of
"a|b|c|d|e|f|g" is "a|b|c|d|e|f", not the rejoining of all split fields. -/
theorem raw_payload_drops_seventh_field :
    getCell (parseLine "a|b|c|d|e|f|g") 9 = "a|b|c|d|e|f" ∧
    getCell (parseLine "a|b|c|d|e|f|g") 9 ≠
      joinWith "|" (splitFields "a|b|c|d|e|f|g") := by
  decide

/-- C3 amended: for every ingestion line with at least six fields the stored
raw payload is exactly the first six split fields rejoined with the pipe;
fields beyond the sixth are dropped from raw_payload just as from the
merged-info column. -/
theorem raw_payload_first_six (line : String) (h : 6 ≤ (splitFields line).length) :
    getCell (parseLine line) 9 = joinWith "|" ((splitFields line).take 6) := by
  rw [parseLine_cell9, padParts_of_ge _ h]

/-- Witness for raw_payload_first_six at the seven-field line. -/
theorem raw_payload_first_six_witness :
    getCell (parseLine "a|b|c|d|e|f|g") 9 = "a|b|c|d|e|f" :=
  (raw_payload_first_six "a|b|c|d|e|f|g" (by decide)).trans (by decide)

/-- C4: ingestion appends, in its single append call, exactly 5 fully empty
spacer rows, then 1 batch-header row, then the K parsed data rows in input
order, and returns K, the number of non-blank stripped lines; with zero
non-blank lines it returns 0 and passes no rows at all to the store. -/
theorem import_structure (b ts raw : String) :
    (execute_import true b ts raw).1 = (dataLines raw).length ∧
    ((execute_import true b ts raw).2.length =
      if 0 < (dataLines raw).length then (dataLines raw).length + 6 else 0) ∧
    (∀ j, j < 5 → 0 < (dataLines raw).length →
      (execute_import true b ts raw).2[j]? = some emptyRow) ∧
    (0 < (dataLines raw).length →
      (execute_import true b ts raw).2[5]? = some (batchHeaderRow b ts)) ∧
    (∀ j, 0 < (dataLines raw).length →
      (execute_import true b ts raw).2[6 + j]? = ((dataLines raw)[j]?).map parseLine) ∧
    ((dataLines raw).length = 0 → (execute_import true b ts raw).2 = []) ∧
    emptyRow = List.replicate 11 "" := by
  by_cases h : 0 < (dataLines raw).length
  · have he : execute_import true b ts raw =
        ((dataLines raw).length,
          List.replicate 5 emptyRow ++ [batchHeaderRow b ts] ++
            (dataLines raw).map parseLine) := by
      simp [execute_import, h]
    refine ⟨by rw [he], ?_, ?_, ?_, ?_, fun h0 => absurd h0 (by omega), rfl⟩
    · rw [he]
      simp only [h, if_true, List.length_append, List.length_replicate,
        List.length_singleton, List.length_map]
      omega
    · intro j hj _
      rw [he, List.getElem?_append, if_pos (by simp; omega), List.getElem?_append,
        if_pos (by simpa using hj), List.getElem?_replicate, if_pos hj]
    · intro _
      rw [he, List.getElem?_append, if_pos (by simp), List.getElem?_append_right (by simp)]
      simp
    · intro j _
      rw [he]
      rw [List.getElem?_append_right (by simp)]
      have h2 : 6 + j - (List.replicate 5 emptyRow ++ [batchHeaderRow b ts]).length = j := by
        simp
      rw [h2, List.getElem?_map]
  · have h0 : (dataLines raw).length = 0 := by omega
    have he : execute_import true b ts raw = (0, []) := by
      simp [execute_import, h]
    refine ⟨by rw [he]; simp [h0], by rw [he]; simp [h], ?_, ?_, ?_,
      fun _ => by rw [he], rfl⟩
    · intro j _ hpos
      exact absurd hpos h
    · intro hpos
      exact absurd hpos h
    · intro j hpos
      exact absurd hpos h

/-- C10: constructed without a worksheet, ingestion returns 0 and withdrawal
returns none with no cell update — the very values produced, with a live
worksheet, by empty ingestion input and by an empty (hence exhausted) table
respectively. -/
theorem no_worksheet_degraded (b ts raw : String) (qty : Nat) (T : List Row) :
    execute_import false b ts raw = (0, []) ∧
    execute_fifo_export false ts qty T = (none, []) ∧
    execute_import false b ts raw = execute_import true b ts "" ∧
    execute_fifo_export false ts qty T = execute_fifo_export true ts qty [] :=
  ⟨rfl, rfl, rfl, rfl⟩

/-- A table holding exactly one eligible data row, read by two racing
withdrawal calls before either write-back lands. -/
def raceTable : List Row :=
  [["BATCH / LOG", "UID", "PASS"],
   ["", "u1", "p1", "", "", "", "Active", "", "Live", "u1|p1||||", "New"]]

/-- C9: the double-spend race of the withdrawal engine. raceTable holds
exactly one eligible row; two withdrawal calls of quantity 1 that both read
this same snapshot (neither seeing the other's taken-marker write, exactly
the interleaving the scan/write-back gap allows) both succeed and both
return the same record's raw payload, so the record is granted to two
callers instead of exactly one. -/
theorem double_spend_shared_snapshot :
    eligPairs raceTable =
      [(1, ["", "u1", "p1", "", "", "", "Active", "", "Live", "u1|p1||||", "New"])] ∧
    (execute_fifo_export true "27/12 10:00" 1 raceTable).1 = some "u1|p1||||" ∧
    (execute_fifo_export true "27/12 10:01" 1 raceTable).1 = some "u1|p1||||" := by
  decide

/-- C8: failure isolation of the status-refresh sweep. Whatever single-cell
updates fail, the loop runs one iteration per selected row (it never aborts:
processed equals the number of tasks); a row none of whose two writes raise
gets both its metric cells written no matter what happens on other rows; and
a row whose update raises is recorded in the error log and the loop
continues. -/
theorem sweep_failure_isolation (metrics : Nat → String × String)
    (fail : Nat → Nat → Bool) (tasks : List Nat) :
    (runSweep metrics fail tasks).processed = tasks.length ∧
    (∀ r, r ∈ tasks → fail r 5 = false → fail r 6 = false →
      (r, 5, (metrics r).1) ∈ (runSweep metrics fail tasks).writes ∧
      (r, 6, (metrics r).2) ∈ (runSweep metrics fail tasks).writes) ∧
    (∀ r, r ∈ tasks → (fail r 5 = true ∨ fail r 6 = true) →
      r ∈ (runSweep metrics fail tasks).errors) := by
  induction tasks with
  | nil => exact ⟨rfl, by simp, by simp⟩
  | cons t ts ih =>
    obtain ⟨ihp, ihw, ihe⟩ := ih
    refine ⟨?_, ?_, ?_⟩
    · by_cases h5 : fail t 5 = true
      · simp [runSweep, h5, ihp]
      · by_cases h6 : fail t 6 = true <;>
          simp [runSweep, h5, h6, ihp]
    · intro r hr hr5 hr6
      rcases List.mem_cons.1 hr with he | hm
      · subst he
        simp [runSweep, hr5, hr6]
      · have := ihw r hm hr5 hr6
        by_cases h5 : fail t 5 = true
        · simp [runSweep, h5, this.1, this.2]
        · by_cases h6 : fail t 6 = true
          · simp [runSweep, h5, h6, this.1, this.2]
          · simp [runSweep, h5, h6, this.1, this.2]
    · intro r hr hf
      rcases List.mem_cons.1 hr with he | hm
      · subst he
        rcases hf with h5 | h6
        · simp [runSweep, h5]
        · by_cases h5 : fail r 5 = true <;> simp [runSweep, h5, h6]
      · have := ihe r hm hf
        by_cases h5 : fail t 5 = true
        · simp [runSweep, h5, this]
        · by_cases h6 : fail t 6 = true <;> simp [runSweep, h5, h6, this]

/-! Lemmas about the withdrawal scan loop. -/

theorem fifoLoop_nil (ts : String) (qty i : Nat) (st : ExportState) :
    fifoLoop ts qty i [] st = st := rfl

theorem fifoLoop_cons (ts : String) (qty i : Nat) (r : Row) (rs : List Row)
    (st : ExportState) :
    fifoLoop ts qty i (r :: rs) st =
      if i == 0 then fifoLoop ts qty (i + 1) rs st
      else if !(isDataRow r) then fifoLoop ts qty (i + 1) rs st
      else if strContains (getCell r 10) takenMarker then fifoLoop ts qty (i + 1) rs st
      else
        let st2 : ExportState :=
          ⟨st.buffer ++ [getCell r 9], st.updates ++ [(i + 1, takenNote ts)], st.found + 1⟩
        if qty ≤ st2.found then st2 else fifoLoop ts qty (i + 1) rs st2 := rfl

/-- The scan's first step: the header row at index 0 is skipped whatever its
content, the rest of the table being scanned from index 1. -/
theorem fifoLoop_zero (ts : String) (qty : Nat) (T : List Row) (st : ExportState) :
    fifoLoop ts qty 0 T st = fifoLoop ts qty 1 (T.drop 1) st := by
  cases T with
  | nil => rfl
  | cons r rest => simp [fifoLoop_cons]

/-- A scan over rows none of which is eligible changes nothing. -/
theorem fifoLoop_no_eligible (ts : String) (qty : Nat) :
    ∀ (rs : List Row) (i : Nat) (st : ExportState), 1 ≤ i →
      (∀ r ∈ rs, eligible r = false) → fifoLoop ts qty i rs st = st := by
  intro rs
  induction rs with
  | nil => intro i st _ _; rfl
  | cons r rest ih =>
    intro i st hi hr
    have hi0 : (i == 0) = false := by simp; omega
    have hre : eligible r = false := hr r (by simp)
    rw [fifoLoop_cons, hi0]
    simp only [Bool.false_eq_true, if_false]
    by_cases hd : isDataRow r = true
    · have hc : strContains (getCell r 10) takenMarker = true := by
        have := hre
        simp [eligible, hd] at this
        exact this
      rw [hd, hc]
      simp only [Bool.not_true, Bool.false_eq_true, if_false, if_true]
      exact ih (i + 1) st (by omega) (fun x hx => hr x (by simp [hx]))
    · have hd2 : isDataRow r = false := by
        cases hb : isDataRow r
        · rfl
        · exact absurd hb hd
      rw [hd2]
      simp only [Bool.not_false, if_true]
      exact ih (i + 1) st (by omega) (fun x hx => hr x (by simp [hx]))

/-- A table whose data rows all carry the taken marker. -/
def exhaustedTable : List Row :=
  [["BATCH / LOG", "UID", "PASS"],
   ["", "u1", "p1", "", "", "", "Active", "", "Live", "u1|p1||||", "Đã lấy 01/01 09:00"],
   ["📦 lot (01/01)"],
   ["", "u2", "p2", "", "", "", "Active", "", "Live", "u2|p2||||", "Đã lấy 01/01 09:05"]]

/-- C5: exhaustion handling. When every data row of the table already
carries the taken marker (so no row is eligible), a withdrawal of any
positive quantity returns none — the distinguished no-result value, not an
empty string — issues no cell update, and leaves the table unchanged; and a
second withdrawal against the (unchanged) table returns none again. -/
theorem exhausted_no_result (ts ts2 : String) (qty qty2 : Nat) (T : List Row)
    (hq : 0 < qty) (hq2 : 0 < qty2)
    (h : ∀ r ∈ T.drop 1, isDataRow r = true →
      strContains (getCell r 10) takenMarker = true) :
    execute_fifo_export true ts qty T = (none, []) ∧
    applyUpdates T (execute_fifo_export true ts qty T).2 = T ∧
    execute_fifo_export true ts2 qty2
      (applyUpdates T (execute_fifo_export true ts qty T).2) = (none, []) := by
  have hne : ∀ r ∈ T.drop 1, eligible r = false := by
    intro r hr
    by_cases hd : isDataRow r = true
    · simp [eligible, hd, h r hr hd]
    · have hd2 : isDataRow r = false := by
        cases hb : isDataRow r
        · rfl
        · exact absurd hb hd
      simp [eligible, hd2]
  have hloop : fifoLoop ts qty 0 T ⟨[], [], 0⟩ = ⟨[], [], 0⟩ := by
    rw [fifoLoop_zero]
    exact fifoLoop_no_eligible ts qty (T.drop 1) 1 ⟨[], [], 0⟩ (le_refl 1) hne
  have h1 : execute_fifo_export true ts qty T = (none, []) := by
    simp [execute_fifo_export, hloop]
  have h2 : applyUpdates T (execute_fifo_export true ts qty T).2 = T := by
    rw [h1]
    rfl
  have hloop2 : fifoLoop ts2 qty2 0 T ⟨[], [], 0⟩ = ⟨[], [], 0⟩ := by
    rw [fifoLoop_zero]
    exact fifoLoop_no_eligible ts2 qty2 (T.drop 1) 1 ⟨[], [], 0⟩ (le_refl 1) hne
  refine ⟨h1, h2, ?_⟩
  rw [h2]
  simp [execute_fifo_export, hloop2]

/-- Witness for exhausted_no_result on a concrete fully taken table. -/
theorem exhausted_no_result_witness :
    execute_fifo_export true "02/01 08:00" 1 exhaustedTable = (none, []) :=
  (exhausted_no_result "02/01 08:00" "02/01 08:01" 1 1 exhaustedTable
    (by decide) (by decide) (by decide)).1

/-! Lemmas connecting the skip tests to the non-empty-identifier criterion. -/

/-- A row shorter than two cells has an empty identifier cell. -/
theorem getCell_one_of_short (r : Row) (h : r.length < 2) : getCell r 1 = "" := by
  match r with
  | [] => rfl
  | [a] => rfl
  | a :: b :: rest => simp at h; omega

/-- The scan's skip test is exactly the non-empty-identifier criterion. -/
theorem isDataRow_eq (r : Row) : isDataRow r = (getCell r 1 != "") := by
  match r with
  | [] => rfl
  | [a] => rfl
  | a :: b :: rest =>
    have hlen : decide ((a :: b :: rest).length < 2) = false :=
      decide_eq_false (by simp)
    simp only [isDataRow, hlen, Bool.false_or]
    rfl

theorem mem_enumRows : ∀ (l : List Row) (i : Nat) (p : Nat × Row),
    p ∈ enumRows i l → i ≤ p.1 ∧ l[p.1 - i]? = some p.2 := by
  intro l
  induction l with
  | nil => intro i p hp; simp [enumRows] at hp
  | cons r rs ih =>
    intro i p hp
    rw [enumRows, List.mem_cons] at hp
    rcases hp with he | hm
    · subst he
      simp
    · obtain ⟨h1, h2⟩ := ih (i + 1) p hm
      refine ⟨by omega, ?_⟩
      have hs : p.1 - i = (p.1 - (i + 1)) + 1 := by omega
      rw [hs, List.getElem?_cons_succ]
      exact h2

theorem enumRows_mem_of_get : ∀ (l : List Row) (i n : Nat) (r : Row),
    l[n]? = some r → (i + n, r) ∈ enumRows i l := by
  intro l
  induction l with
  | nil => intro i n r h; simp at h
  | cons x xs ih =>
    intro i n r h
    cases n with
    | zero =>
      rw [List.getElem?_cons_zero] at h
      cases h
      simp [enumRows]
    | succ m =>
      rw [List.getElem?_cons_succ] at h
      have hm := ih (i + 1) m r h
      rw [enumRows, List.mem_cons]
      right
      have he : i + (m + 1) = (i + 1) + m := by omega
      rw [he]
      exact hm

/-- C6: the data-row invariant. (1) the withdrawal scan skips the header row
(index 0) whatever it holds; (2) its skip test accepts exactly the rows with
a non-empty identifier cell, eligibility further requiring an untaken stock
note; (3) every pair the scan considers is a real table row below the header
with a non-empty identifier; (4) conversely every untaken row with non-empty
identifier below the header is considered; (5) every row selected by the
sweep lies below the header (sheet row at least 2) and has a non-empty
identifier; (6) and (7): the dashboard counts tally exactly the rows passing
the same non-empty-identifier test as the scan. -/
theorem data_row_countable_invariant (T df : List Row) (ts : String) (qty : Nat)
    (st : ExportState) :
    fifoLoop ts qty 0 T st = fifoLoop ts qty 1 (T.drop 1) st ∧
    (∀ r : Row, eligible r =
      (getCell r 1 != "" && !(strContains (getCell r 10) takenMarker))) ∧
    (∀ p ∈ eligPairs T, 1 ≤ p.1 ∧ T[p.1]? = some p.2 ∧ getCell p.2 1 ≠ "") ∧
    (∀ i r, T[i]? = some r → 1 ≤ i → getCell r 1 ≠ "" →
      strContains (getCell r 10) takenMarker = false → (i, r) ∈ eligPairs T) ∧
    (∀ t ∈ sweepTasks df, 2 ≤ t ∧ ∃ r : Row, df[t - 2]? = some r ∧ getCell r 1 ≠ "") ∧
    totalAssets T = ((T.drop 1).filter (fun r => isDataRow r)).length ∧
    newAssets T = ((T.drop 1).filter
      (fun r => isDataRow r && strContains (getCell r 10) "New")).length := by
  refine ⟨fifoLoop_zero ts qty T st, ?_, ?_, ?_, ?_, ?_, ?_⟩
  · intro r
    rw [eligible, isDataRow_eq]
  · intro p hp
    rw [eligPairs, eligFrom, List.mem_filter] at hp
    obtain ⟨hmem, helig⟩ := hp
    obtain ⟨h1, h2⟩ := mem_enumRows _ _ _ hmem
    rw [List.getElem?_drop] at h2
    have he : 1 + (p.1 - 1) = p.1 := by omega
    rw [he] at h2
    refine ⟨h1, h2, ?_⟩
    have hel := helig
    rw [eligible, isDataRow_eq, Bool.and_eq_true] at hel
    simpa using hel.1
  · intro i r hget hi hid hnt
    rw [eligPairs, eligFrom, List.mem_filter]
    constructor
    · have hd : (T.drop 1)[i - 1]? = some r := by
        rw [List.getElem?_drop]
        have he : 1 + (i - 1) = i := by omega
        rw [he]
        exact hget
      have := enumRows_mem_of_get (T.drop 1) 1 (i - 1) r hd
      have he2 : 1 + (i - 1) = i := by omega
      rw [he2] at this
      exact this
    · rw [eligible, isDataRow_eq, hnt]
      simp [hid]
  · intro t ht
    rw [sweepTasks, List.mem_filterMap] at ht
    obtain ⟨p, hp, hf⟩ := ht
    by_cases hc : (getCell p.2 1 != "" && stripStr (getCell p.2 1) != "" &&
        getCell p.2 1 != "nan" && !(strContains (getCell p.2 6) "Kick")) = true
    · rw [if_pos hc] at hf
      cases hf
      obtain ⟨h1, h2⟩ := mem_enumRows _ _ _ hp
      refine ⟨by omega, p.2, ?_, ?_⟩
      · have he : p.1 + 2 - 2 = p.1 - 0 := by omega
        rw [he]
        exact h2
      · have hc2 := hc
        rw [Bool.and_eq_true, Bool.and_eq_true, Bool.and_eq_true] at hc2
        simpa using hc2.1.1.1
    · rw [if_neg hc] at hf
      cases hf
  · rw [totalAssets]
    have : ∀ r ∈ T.drop 1, (getCell r 1 != "") = isDataRow r :=
      fun r _ => (isDataRow_eq r).symm
    rw [List.filter_congr this]
  · rw [newAssets]
    have : ∀ r ∈ T.drop 1, (getCell r 1 != "" && strContains (getCell r 10) "New") =
        (isDataRow r && strContains (getCell r 10) "New") := by
      intro r _
      rw [isDataRow_eq]
    rw [List.filter_congr this]

/-- A table with one row matching the keyword "Mexico" and one not. -/
def kwRow : Row :=
  ["", "u2", "p2", "Mexico VIP|||", "", "", "Active", "", "Live",
    "u2|p2|Mexico VIP|||", "New"]

/-- Companion table for the keyword witness. -/
def kwTable : List Row :=
  [["BATCH / LOG", "UID", "PASS"],
   ["", "u1", "p1", "m|mp|2fa|x", "", "", "Active", "", "Live", "u1|p1|m|mp|2fa|x", "New"],
   kwRow]

/-- C2: soundness of the (spec-modelled) keyword filter. With a non-empty
keyword every selected row carries the keyword as a case-insensitive
substring in its batch label, its composite info or its raw payload — never
do all three lack it; the empty keyword matches every row; and the returned
text is exactly the newline-joining of the selected rows' payloads. -/
theorem keyword_filter_sound (kw ts : String) (qty : Nat) (T : List Row)
    (hkw : kw ≠ "") :
    (∀ p ∈ selectKw kw qty T,
      containsCI (getCell p.2 0) kw = true ∨ containsCI (getCell p.2 3) kw = true ∨
        containsCI (getCell p.2 9) kw = true) ∧
    (∀ r : Row, kwMatches "" r = true) ∧
    (∀ s, (exportKw kw ts qty T).1 = some s →
      s = joinWith "\n" ((selectKw kw qty T).map (fun p => getCell p.2 9))) := by
  refine ⟨?_, ?_, ?_⟩
  · intro p hp
    rw [selectKw] at hp
    have hp2 := List.take_subset _ _ hp
    rw [List.mem_filter, Bool.and_eq_true] at hp2
    have hk := hp2.2.2
    rw [kwMatches] at hk
    have hkw2 : (kw == "") = false := by simpa using hkw
    rw [hkw2] at hk
    simp only [Bool.false_or, Bool.or_eq_true] at hk
    tauto
  · intro r
    simp [kwMatches]
  · intro s hs
    rw [exportKw] at hs
    by_cases hemp : (selectKw kw qty T).isEmpty = true
    · rw [if_pos hemp] at hs
      exact absurd hs (by simp)
    · rw [if_neg hemp] at hs
      simpa using hs.symm

/-- Witness for keyword_filter_sound: with keyword "Mexico" on kwTable the
one selected row carries the keyword case-insensitively. -/
theorem keyword_filter_sound_witness :
    containsCI (getCell kwRow 0) "Mexico" = true ∨
      containsCI (getCell kwRow 3) "Mexico" = true ∨
      containsCI (getCell kwRow 9) "Mexico" = true :=
  (keyword_filter_sound "Mexico" "27/12 11:00" 1 kwTable (by decide)).1
    (2, kwRow) (by decide)

/-! The FIFO characterization of the withdrawal scan. -/

theorem eligFrom_nil (i : Nat) : eligFrom i [] = [] := rfl

theorem eligFrom_cons (i : Nat) (r : Row) (rs : List Row) :
    eligFrom i (r :: rs) =
      if eligible r then (i, r) :: eligFrom (i + 1) rs else eligFrom (i + 1) rs := by
  by_cases he : eligible r = true <;>
    simp [eligFrom, enumRows, List.filter_cons, he]

/-- The scan, started at any positive index with fewer rows found than
requested, grants exactly the first (quantity - found) still-eligible rows
in row order: it appends their payloads to the buffer, queues exactly their
K-column updates, and counts them. -/
theorem fifoLoop_spec (ts : String) (qty : Nat) :
    ∀ (rs : List Row) (i : Nat) (st : ExportState), 1 ≤ i → st.found < qty →
    fifoLoop ts qty i rs st =
      ⟨st.buffer ++ ((eligFrom i rs).take (qty - st.found)).map (fun p => getCell p.2 9),
       st.updates ++ ((eligFrom i rs).take (qty - st.found)).map
         (fun p => (p.1 + 1, takenNote ts)),
       st.found + min (qty - st.found) (eligFrom i rs).length⟩ := by
  intro rs
  induction rs with
  | nil =>
    intro i st hi hf
    simp [fifoLoop_nil, eligFrom_nil]
  | cons r rest ih =>
    intro i st hi hf
    have hi0 : (i == 0) = false := by simp; omega
    rw [fifoLoop_cons]
    rw [eligFrom_cons]
    by_cases hd : isDataRow r = true
    · by_cases hc : strContains (getCell r 10) takenMarker = true
      · have he : eligible r = false := by simp [eligible, hd, hc]
        rw [ih (i + 1) st (by omega) hf]
        simp [hi0, hd, hc, he]
      · have hcf : strContains (getCell r 10) takenMarker = false := by
          cases hb : strContains (getCell r 10) takenMarker
          · rfl
          · exact absurd hb hc
        have he : eligible r = true := by simp [eligible, hd, hcf]
        simp only [hi0, hd, hcf, he, Bool.not_true, Bool.false_eq_true, if_false,
          if_true, Bool.true_eq_false]
        by_cases hstop : qty ≤ st.found + 1
        · have hq1 : qty - st.found = 1 := by omega
          rw [if_pos hstop, hq1]
          simp only [ExportState.mk.injEq]
          refine ⟨rfl, rfl, ?_⟩
          simp only [List.length_cons]
          omega
        · rw [if_neg hstop]
          have hlt : st.found + 1 < qty := by omega
          rw [ih (i + 1) ⟨st.buffer ++ [getCell r 9],
            st.updates ++ [(i + 1, takenNote ts)], st.found + 1⟩ (by omega) hlt]
          have hsub : qty - st.found = (qty - (st.found + 1)) + 1 := by omega
          rw [hsub, List.take_succ_cons]
          simp only [ExportState.mk.injEq, List.map_cons, List.length_cons]
          refine ⟨?_, ?_, by omega⟩
          · simp [List.append_assoc]
          · simp [List.append_assoc]
    · have hd2 : isDataRow r = false := by
        cases hb : isDataRow r
        · rfl
        · exact absurd hb hd
      have he : eligible r = false := by simp [eligible, hd2]
      rw [ih (i + 1) st (by omega) hf]
      simp [hi0, hd2, he]

/-- The whole scan of a table grants exactly the first qty eligible rows. -/
theorem fifoLoop_main (ts : String) (qty : Nat) (T : List Row) (h1 : 1 ≤ qty) :
    fifoLoop ts qty 0 T ⟨[], [], 0⟩ =
      ⟨(selectedRows qty T).map (fun p => getCell p.2 9),
       (selectedRows qty T).map (fun p => (p.1 + 1, takenNote ts)),
       min qty (eligPairs T).length⟩ := by
  rw [fifoLoop_zero]
  rw [fifoLoop_spec ts qty (T.drop 1) 1 ⟨[], [], 0⟩ (le_refl 1)
    (by show 0 < qty; omega)]
  simp [selectedRows, eligPairs]

/-! Lemmas about applying the queued updates to the table. -/

theorem modifyRow_getElem? (f : Row → Row) :
    ∀ (l : List Row) (n k : Nat),
      (modifyRow f n l)[k]? = if k = n then (l[k]?).map f else l[k]? := by
  intro l
  induction l with
  | nil => intro n k; simp [modifyRow]
  | cons r rs ih =>
    intro n k
    cases n with
    | zero =>
      cases k with
      | zero => simp [modifyRow]
      | succ m => simp [modifyRow]
    | succ n2 =>
      cases k with
      | zero => simp [modifyRow]
      | succ m =>
        rw [modifyRow]
        rw [List.getElem?_cons_succ, List.getElem?_cons_succ, ih n2 m]
        by_cases hm : m = n2
        · simp [hm]
        · have : ¬ (m + 1 = n2 + 1) := by omega
          simp [hm, this]

theorem applyUpdates_cons (T : List Row) (u : Nat × String)
    (us : List (Nat × String)) :
    applyUpdates T (u :: us) =
      applyUpdates (modifyRow (fun r => setCell r 10 u.2) (u.1 - 1) T) us := rfl

theorem applyUpdates_append (T : List Row) (us1 us2 : List (Nat × String)) :
    applyUpdates T (us1 ++ us2) = applyUpdates (applyUpdates T us1) us2 := by
  simp [applyUpdates, List.foldl_append]

/-- A table index targeted by none of the updates keeps its row. -/
theorem applyUpdates_getElem?_notMem :
    ∀ (us : List (Nat × String)) (T : List Row) (k : Nat),
      (∀ u ∈ us, u.1 - 1 ≠ k) → (applyUpdates T us)[k]? = T[k]? := by
  intro us
  induction us with
  | nil => intro T k _; rfl
  | cons u rest ih =>
    intro T k h
    rw [applyUpdates_cons, ih _ k (fun v hv => h v (by simp [hv]))]
    rw [modifyRow_getElem?]
    have hne : ¬ (k = u.1 - 1) := fun hk => (h u (by simp)) hk.symm
    rw [if_neg hne]

/-- The one update targeting an index rewrites exactly cell 10 of its row. -/
theorem applyUpdates_getElem?_hit (us1 us2 : List (Nat × String))
    (u : Nat × String) (T : List Row)
    (h1 : ∀ v ∈ us1, v.1 - 1 ≠ u.1 - 1) (h2 : ∀ v ∈ us2, v.1 - 1 ≠ u.1 - 1) :
    (applyUpdates T (us1 ++ u :: us2))[u.1 - 1]? =
      (T[u.1 - 1]?).map (fun r => setCell r 10 u.2) := by
  rw [applyUpdates_append, applyUpdates_cons,
    applyUpdates_getElem?_notMem us2 _ _ h2, modifyRow_getElem?, if_pos rfl,
    applyUpdates_getElem?_notMem us1 T _ h1]

/-! Cell-level behaviour of setCell. -/

theorem getCell_setCell_eq : ∀ (r : Row) (j : Nat) (v : String),
    getCell (setCell r j v) j = v := by
  intro r j
  induction j generalizing r with
  | zero =>
    intro v
    match r with
    | [] => rfl
    | c :: cs => rfl
  | succ m ih =>
    intro v
    match r with
    | [] =>
      rw [setCell]
      rw [getCell, List.getD_cons_succ]
      exact ih []  v
    | c :: cs =>
      rw [setCell]
      rw [getCell, List.getD_cons_succ]
      exact ih cs v

theorem getCell_setCell_ne : ∀ (r : Row) (j k : Nat) (v : String), k ≠ j →
    getCell (setCell r j v) k = getCell r k := by
  intro r j
  induction j generalizing r with
  | zero =>
    intro k v hk
    match r, k with
    | [], 0 => exact absurd rfl hk
    | [], m + 1 => rfl
    | c :: cs, 0 => exact absurd rfl hk
    | c :: cs, m + 1 => rfl
  | succ n ih =>
    intro k v hk
    match r, k with
    | [], 0 => rfl
    | [], m + 1 =>
      rw [setCell, getCell, List.getD_cons_succ]
      have h2 := ih [] m v (by omega)
      rw [getCell] at h2
      rw [h2]
      rfl
    | c :: cs, 0 => rfl
    | c :: cs, m + 1 =>
      rw [setCell, getCell, List.getD_cons_succ]
      have h2 := ih cs m v (by omega)
      rw [getCell] at h2
      rw [h2]
      rfl

/-! Index facts about the eligible pairs. -/

theorem enumRows_pairwise : ∀ (l : List Row) (i : Nat),
    (enumRows i l).Pairwise (fun p q => p.1 < q.1) := by
  intro l
  induction l with
  | nil => intro i; simp [enumRows]
  | cons r rs ih =>
    intro i
    rw [enumRows, List.pairwise_cons]
    refine ⟨?_, ih (i + 1)⟩
    intro q hq
    have := (mem_enumRows _ _ _ hq).1
    simp only []
    omega

theorem selectedRows_pairwise (qty : Nat) (T : List Row) :
    (selectedRows qty T).Pairwise (fun p q => p.1 < q.1) :=
  List.Pairwise.sublist ((List.take_sublist _ _).trans (List.filter_sublist _))
    (enumRows_pairwise (T.drop 1) 1)

theorem selectedRows_mem_table (qty : Nat) (T : List Row) :
    ∀ p ∈ selectedRows qty T, 1 ≤ p.1 ∧ T[p.1]? = some p.2 := by
  intro p hp
  have hp2 := List.take_subset _ _ hp
  rw [eligPairs, eligFrom, List.mem_filter] at hp2
  obtain ⟨h1, h2⟩ := mem_enumRows _ _ _ hp2.1
  refine ⟨h1, ?_⟩
  rw [List.getElem?_drop] at h2
  have he : 1 + (p.1 - 1) = p.1 := by omega
  rw [he] at h2
  exact h2

/-- C1: the FIFO withdrawal contract. With the eligible data rows of the
table being, in row order, the pairs eligPairs T (index, row), a withdrawal
of quantity qty between 1 and their number returns exactly the first qty of
their raw payloads (column J) newline-joined in that order, queues exactly
one stock-note update per granted row (column K of that row set to the
taken note), and the updated table keeps every non-granted row — in
particular every later eligible row — byte for byte, while each granted row
changes in cell 10 only. -/
theorem withdrawal_fifo (ts : String) (qty : Nat) (T : List Row) (h1 : 1 ≤ qty)
    (h2 : qty ≤ (eligPairs T).length) :
    (execute_fifo_export true ts qty T).1 =
      some (joinWith "\n" ((selectedRows qty T).map (fun p => getCell p.2 9))) ∧
    (execute_fifo_export true ts qty T).2 =
      (selectedRows qty T).map (fun p => (p.1 + 1, takenNote ts)) ∧
    (selectedRows qty T).length = qty ∧
    (∀ p ∈ selectedRows qty T, 1 ≤ p.1 ∧ T[p.1]? = some p.2) ∧
    (∀ p ∈ selectedRows qty T,
      (applyUpdates T (execute_fifo_export true ts qty T).2)[p.1]? =
        some (setCell p.2 10 (takenNote ts))) ∧
    (∀ p ∈ selectedRows qty T,
      getCell (setCell p.2 10 (takenNote ts)) 10 = takenNote ts ∧
      ∀ j, j ≠ 10 → getCell (setCell p.2 10 (takenNote ts)) j = getCell p.2 j) ∧
    (∀ k, k ∉ (selectedRows qty T).map (fun p => p.1) →
      (applyUpdates T (execute_fifo_export true ts qty T).2)[k]? = T[k]?) := by
  have hlen : (selectedRows qty T).length = qty := by
    rw [selectedRows, List.length_take]
    exact Nat.min_eq_left h2
  have hmain := fifoLoop_main ts qty T h1
  have hne : ((selectedRows qty T).map (fun p => getCell p.2 9)).isEmpty = false := by
    rw [List.isEmpty_eq_false_iff_exists_mem]
    have : 0 < (selectedRows qty T).length := by omega
    match hsel : selectedRows qty T with
    | [] => rw [hsel] at this; simp at this
    | q :: qs => exact ⟨getCell q.2 9, by simp⟩
  have hexec : execute_fifo_export true ts qty T =
      (some (joinWith "\n" ((selectedRows qty T).map (fun p => getCell p.2 9))),
       (selectedRows qty T).map (fun p => (p.1 + 1, takenNote ts))) := by
    rw [execute_fifo_export]
    simp only [Bool.not_true, Bool.false_eq_true, if_false]
    rw [hmain]
    simp only [hne, Bool.false_eq_true, if_false]
  have hupd : (execute_fifo_export true ts qty T).2 =
      (selectedRows qty T).map (fun p => (p.1 + 1, takenNote ts)) := by
    rw [hexec]
  have hpw := selectedRows_pairwise qty T
  have hmem := selectedRows_mem_table qty T
  refine ⟨by rw [hexec], hupd, hlen, hmem, ?_, ?_, ?_⟩
  · intro p hp
    obtain ⟨s1, s2, hsplit⟩ := List.append_of_mem hp
    have hpw2 := hpw
    rw [hsplit, List.pairwise_append, List.pairwise_cons] at hpw2
    have hs1 : ∀ v ∈ s1.map (fun p => (p.1 + 1, takenNote ts)),
        v.1 - 1 ≠ ((p.1 + 1, takenNote ts) : Nat × String).1 - 1 := by
      intro v hv
      rw [List.mem_map] at hv
      obtain ⟨q, hq, hvq⟩ := hv
      have := hpw2.2.2 q hq p (by simp)
      rw [← hvq]
      simp only []
      omega
    have hs2 : ∀ v ∈ s2.map (fun p => (p.1 + 1, takenNote ts)),
        v.1 - 1 ≠ ((p.1 + 1, takenNote ts) : Nat × String).1 - 1 := by
      intro v hv
      rw [List.mem_map] at hv
      obtain ⟨q, hq, hvq⟩ := hv
      have := hpw2.2.1.1 q hq
      rw [← hvq]
      simp only []
      omega
    have hhit := applyUpdates_getElem?_hit
      (s1.map (fun p => (p.1 + 1, takenNote ts)))
      (s2.map (fun p => (p.1 + 1, takenNote ts)))
      (p.1 + 1, takenNote ts) T hs1 hs2
    have hidx : ((p.1 + 1, takenNote ts) : Nat × String).1 - 1 = p.1 := by simp
    rw [hidx] at hhit
    rw [(hmem p hp).2] at hhit
    rw [hupd, hsplit, List.map_append, List.map_cons]
    exact hhit.trans (by rfl)
  · intro p _
    exact ⟨getCell_setCell_eq p.2 10 (takenNote ts),
      fun j hj => getCell_setCell_ne p.2 10 j (takenNote ts) hj⟩
  · intro k hk
    rw [hupd]
    apply applyUpdates_getElem?_notMem
    intro u hu
    rw [List.mem_map] at hu
    obtain ⟨q, hq, hqu⟩ := hu
    intro hcontra
    apply hk
    rw [List.mem_map]
    refine ⟨q, hq, ?_⟩
    rw [← hqu] at hcontra
    simpa using hcontra

/-- Companion table for the FIFO witness: header, one batch header row, two
eligible rows and one taken row. -/
def fifoTable : List Row :=
  [["BATCH / LOG", "UID", "PASS"],
   ["📦 lot (27/12)"],
   ["", "u1", "p1", "m|||", "", "", "Active", "", "Live", "u1|p1|m|||", "New"],
   ["", "u2", "p2", "|||", "", "", "Active", "", "Live", "u2|p2||||", "Đã lấy 01/01"],
   ["", "u3", "p3", "|||", "", "", "Active", "", "Live", "u3|p3||||", "New"]]

/-- Witness for withdrawal_fifo: quantity 1 on fifoTable grants exactly the
first eligible payload. -/
theorem withdrawal_fifo_witness :
    (execute_fifo_export true "27/12 12:00" 1 fifoTable).1 = some "u1|p1|m|||" :=
  ((withdrawal_fifo "27/12 12:00" 1 fifoTable (by decide) (by decide)).1).trans
    (by decide)

end Titan
